import Mathlib

/-!
Shallow embedding of the Primate-Coder-Deployer operation engine
(`deepseek_client.py`, `github_manager.py`, `app.py`, `railway_manager.py`).

Text is modelled as `List Char` (Python `str`); parsed JSON values as the
inductive `JValue` (Python objects produced by `json.loads`); the remote
repository file tree as an association list from path to content.  Fallible
Python code (functions that can raise) is modelled with `Except`; functions
whose every exception is caught in the source are total.
-/

set_option maxRecDepth 8192

namespace PrimateCoder

/-- Text is a list of characters (Python `str`). -/
abbrev Chars := List Char

/-- Characters stripped by Python `str.strip()` and matched by the regex
class `\s`: space, tab, newline, carriage return, vertical tab, form feed. -/
def pyIsSpace (c : Char) : Bool :=
  c = ' ' || c = '\t' || c = '\n' || c = '\r' || c = '\x0b' || c = '\x0c'

/-- Python `str.strip()`. -/
def pyStrip (s : Chars) : Chars :=
  ((s.dropWhile pyIsSpace).reverse.dropWhile pyIsSpace).reverse

/-- Python `content.split("\n")` (from `github_manager.py`): splitting on a
one-character separator; the empty string yields `[[]]`. -/
def pySplitNl : Chars → List Chars
  | [] => [[]]
  | c :: cs =>
    if c = '\n' then [] :: pySplitNl cs
    else
      match pySplitNl cs with
      | [] => [[c]]
      | l :: ls => (c :: l) :: ls

/-- Python `"\n".join(lines)` (from `github_manager.py`). -/
def pyJoinNl : List Chars → Chars
  | [] => []
  | [l] => l
  | l :: ls => l ++ '\n' :: pyJoinNl ls

/-- Index of the first occurrence of `pat` as a contiguous substring
(`str.find` / the `in` operator on Python strings). -/
def findSubIdx (pat : Chars) : Chars → Option Nat
  | [] => if pat = [] then some 0 else none
  | c :: rest =>
    if pat.isPrefixOf (c :: rest) then some 0
    else (findSubIdx pat rest).map (· + 1)

/-- Python `pat in s` for strings. -/
def containsSub (pat s : Chars) : Bool := (findSubIdx pat s).isSome

/-- Index of the first occurrence of the character `ch`. -/
def findIdxChar (ch : Char) : Chars → Option Nat
  | [] => none
  | c :: cs => if c = ch then some 0 else (findIdxChar ch cs).map (· + 1)

/-- Case-insensitive prefix test (the effect of `re.IGNORECASE` on the
ASCII literals used by the source's patterns). -/
def ciStartsWith : Chars → Chars → Bool
  | [], _ => true
  | _ :: _, [] => false
  | p :: ps, c :: cs => (p.toLower = c.toLower) && ciStartsWith ps cs

/-- Parsed JSON values: the result type of Python's `json.loads`.
Objects are association lists in insertion order (Python `dict`). -/
inductive JValue where
  | null : JValue
  | bool : Bool → JValue
  | num : Int → JValue
  | str : Chars → JValue
  | arr : List JValue → JValue
  | obj : List (Chars × JValue) → JValue

/-- Python `v is None` on a parsed JSON value. -/
def JValue.isNull : JValue → Bool
  | .null => true
  | _ => false

/-- Python `v == tok` where `tok` is a string literal: true exactly when the
value is that string. -/
def isStrTag (v : Option JValue) (tok : Chars) : Bool :=
  match v with
  | some (.str s) => s = tok
  | _ => false

/-- Python truthiness of a parsed JSON value (`if direct_parse:` etc.). -/
def pyTruthy : JValue → Bool
  | .null => false
  | .bool b => b
  | .num n => n != 0
  | .str s => !s.isEmpty
  | .arr l => !l.isEmpty
  | .obj f => !f.isEmpty

/-- Truthiness of an optional value (`None` is falsy). -/
def optTruthy : Option JValue → Bool
  | none => false
  | some v => pyTruthy v

/-- Python `d.get(k)` / `d[k]` lookup on a dict: first matching key. -/
def dictGet (k : Chars) : List (Chars × JValue) → Option JValue
  | [] => none
  | (k', v) :: rest => if k' = k then some v else dictGet k rest

/-- Python `k in d` on a dict. -/
def dictHas (k : Chars) (d : List (Chars × JValue)) : Bool := (dictGet k d).isSome

/-- Python `d[k] = v`: replace the value at the key's position if present,
else append a new entry. -/
def dictSet (k : Chars) (v : JValue) : List (Chars × JValue) → List (Chars × JValue)
  | [] => [(k, v)]
  | (k', v') :: rest => if k' = k then (k, v) :: rest else (k', v') :: dictSet k v rest

/-- Whitespace accepted between JSON tokens by `json.loads`. -/
def jsonIsWs (c : Char) : Bool := c = ' ' || c = '\t' || c = '\n' || c = '\r'

/-- Skip inter-token whitespace. -/
def jsonSkipWs (s : Chars) : Chars := s.dropWhile jsonIsWs

/-- Parse the remainder of a JSON string literal (after the opening quote),
returning the decoded characters and the rest of the input.  Models the
string syntax accepted by Python `json.loads` (the `\uXXXX` escape is not
needed by any input considered here and is treated as a parse failure). -/
def jsonString : Chars → Option (Chars × Chars)
  | [] => none
  | c :: cs =>
    if c = '"' then some ([], cs)
    else if c = '\\' then
      match cs with
      | [] => none
      | e :: cs' =>
        let esc : Option Char :=
          if e = '"' then some '"'
          else if e = '\\' then some '\\'
          else if e = '/' then some '/'
          else if e = 'n' then some '\n'
          else if e = 't' then some '\t'
          else if e = 'r' then some '\r'
          else if e = 'b' then some '\x08'
          else if e = 'f' then some '\x0c'
          else none
        match esc with
        | none => none
        | some ch =>
          match jsonString cs' with
          | none => none
          | some (rest, rem) => some (ch :: rest, rem)
    else if c.toNat < 32 then none
    else
      match jsonString cs with
      | none => none
      | some (rest, rem) => some (c :: rest, rem)

/-- Decimal digits to a natural number. -/
def digitsToNat (ds : Chars) : Nat :=
  ds.foldl (fun acc c => acc * 10 + (c.toNat - '0'.toNat)) 0

/-- Parse a JSON integer literal (JSON number grammar restricted to
integers; a following `.`, `e` or `E` is treated as a parse failure —
no input considered here contains floats). -/
def jsonNumber (s : Chars) : Option (JValue × Chars) :=
  let (neg, s1) := match s with
    | '-' :: rest => (true, rest)
    | _ => (false, s)
  let ds := s1.takeWhile (·.isDigit)
  let rest := s1.dropWhile (·.isDigit)
  if ds.isEmpty then none
  else if ds.length > 1 && ds.headI = '0' then none
  else
    match rest with
    | '.' :: _ => none
    | 'e' :: _ => none
    | 'E' :: _ => none
    | _ =>
      let n : Int := (digitsToNat ds : Int)
      some (.num (if neg then -n else n), rest)

mutual

/-- Parse one JSON value (recursive descent, fuel-bounded; the fuel supplied
by `jsonLoads` is ample since every recursive call consumes input). -/
def jsonValue : Nat → Chars → Option (JValue × Chars)
  | 0, _ => none
  | fuel + 1, s0 =>
    match jsonSkipWs s0 with
    | [] => none
    | '{' :: cs =>
      (match jsonSkipWs cs with
       | '}' :: rest => some (.obj [], rest)
       | s1 => (jsonMembers fuel s1).map (fun p => (.obj p.1, p.2)))
    | '[' :: cs =>
      (match jsonSkipWs cs with
       | ']' :: rest => some (.arr [], rest)
       | s1 => (jsonElements fuel s1).map (fun p => (.arr p.1, p.2)))
    | '"' :: cs => (jsonString cs).map (fun p => (.str p.1, p.2))
    | s1 =>
      if "true".data.isPrefixOf s1 then some (.bool true, s1.drop 4)
      else if "false".data.isPrefixOf s1 then some (.bool false, s1.drop 5)
      else if "null".data.isPrefixOf s1 then some (.null, s1.drop 4)
      else jsonNumber s1

/-- Parse the members of a JSON object after the opening brace
(non-empty member list). -/
def jsonMembers : Nat → Chars → Option (List (Chars × JValue) × Chars)
  | 0, _ => none
  | fuel + 1, s0 =>
    match jsonSkipWs s0 with
    | '"' :: cs =>
      (match jsonString cs with
       | none => none
       | some (key, rest1) =>
         match jsonSkipWs rest1 with
         | ':' :: rest2 =>
           (match jsonValue fuel rest2 with
            | none => none
            | some (v, rest3) =>
              match jsonSkipWs rest3 with
              | ',' :: rest4 =>
                (match jsonMembers fuel rest4 with
                 | none => none
                 | some (ms, rest5) => some ((key, v) :: ms, rest5))
              | '}' :: rest4 => some ([(key, v)], rest4)
              | _ => none)
         | _ => none)
    | _ => none

/-- Parse the elements of a JSON array after the opening bracket
(non-empty element list). -/
def jsonElements : Nat → Chars → Option (List JValue × Chars)
  | 0, _ => none
  | fuel + 1, s0 =>
    match jsonValue fuel s0 with
    | none => none
    | some (v, rest1) =>
      match jsonSkipWs rest1 with
      | ',' :: rest2 =>
        (match jsonElements fuel rest2 with
         | none => none
         | some (vs, rest3) => some (v :: vs, rest3))
      | ']' :: rest2 => some ([v], rest2)
      | _ => none

end

/-- Model of Python `json.loads`: parse one value and require only
whitespace to follow (trailing garbage is a decode error). -/
def jsonLoads (s : Chars) : Option JValue :=
  match jsonValue (2 * s.length + 2) s with
  | none => none
  | some (v, rest) => if (jsonSkipWs rest).isEmpty then some v else none

/-- True when the first character is `close`. -/
def closeHead (close : Char) : Chars → Bool
  | [] => false
  | c :: _ => c = close

/-- One `re.sub(r',\s*X', 'X', s)` pass from `safe_json_parse` strategy 2:
every comma followed by optional whitespace and the closing character `X`
is replaced by `X` alone, scanning left to right. -/
def subCommaCloseGo (close : Char) : Nat → Chars → Chars
  | 0, _ => []
  | _ + 1, [] => []
  | fuel + 1, c :: rest =>
    if c = ',' && closeHead close (rest.dropWhile pyIsSpace) then
      close :: subCommaCloseGo close fuel ((rest.dropWhile pyIsSpace).drop 1)
    else
      c :: subCommaCloseGo close fuel rest

/-- Fuel wrapper for the substitution scan; every step consumes at least one
input character, so `length + 1` steps always complete the scan. -/
def subCommaClose (close : Char) (s : Chars) : Chars := subCommaCloseGo close (s.length + 1) s

/-- `safe_json_parse` strategy 2: strip trailing commas before `}` and `]`. -/
def fixTrailing (s : Chars) : Chars := subCommaClose ']' (subCommaClose '}' s)

/-- The substring of `s` of length `len` starting at `start`
(`json_str[start:start+len]`). -/
def sublistAt (s : Chars) (start len : Nat) : Chars := (s.drop start).take len

/-- The (length, start) pairs enumerated by `safe_json_parse` strategy 3:
`for length in range(n, 0, -1): for start in range(n - length + 1)`.
With `length = n - j` the start count `n - length + 1` equals `j + 1`. -/
def strat3Pairs (n : Nat) : List (Nat × Nat) :=
  (List.range n).flatMap (fun j => (List.range (j + 1)).map (fun st => (n - j, st)))

/-- `substring.startswith('{') and substring.endswith('}')`. -/
def bracedShape (sub : Chars) : Bool :=
  sub.head? = some '{' && sub.getLast? = some '}'

/-- `safe_json_parse` strategy 3 over a pair list: decode each `{...}`-shaped
substring in enumeration order, returning the first successful value and the
number of decode attempts made (the attempt count instruments the source's
`json.loads` call sites; other substrings are skipped without decoding). -/
def strat3Go (s : Chars) : List (Nat × Nat) → Option JValue × Nat
  | [] => (none, 0)
  | (len, st) :: rest =>
    let sub := sublistAt s st len
    if bracedShape sub then
      match jsonLoads sub with
      | some v => (some v, 1)
      | none =>
        let r := strat3Go s rest
        (r.1, r.2 + 1)
    else strat3Go s rest

/-- `safe_json_parse` strategy 3: longest valid JSON substring search. -/
def strat3Run (s : Chars) : Option JValue × Nat := strat3Go s (strat3Pairs s.length)

/-- `DeepSeekClient.safe_json_parse`: strip, direct decode, trailing-comma
repair, then the longest-valid-substring search.  Total: every exception of
the source is caught inside the function. -/
def safeJsonParse (s0 : Chars) : Option JValue :=
  let s := pyStrip s0
  match jsonLoads s with
  | some v => some v
  | none =>
    match jsonLoads (fixTrailing s) with
    | some v => some v
    | none => (strat3Run s).1

/-- Character scan of `DeepSeekClient._extract_balanced_braces`: depth
counter, slice accumulator (reversed), emitting each slice whose depth
returns to zero. -/
def bbGo : Chars → Nat → Chars → List Chars
  | [], _, _ => []
  | c :: rest, depth, acc =>
    if c = '{' then bbGo rest (depth + 1) (c :: acc)
    else if c = '}' then
      match depth with
      | 0 => bbGo rest 0 acc
      | 1 => (c :: acc).reverse :: bbGo rest 0 []
      | d + 2 => bbGo rest (d + 1) (c :: acc)
    else if depth = 0 then bbGo rest 0 acc
    else bbGo rest depth (c :: acc)

/-- `DeepSeekClient._extract_balanced_braces`. -/
def extractBalancedBraces (s : Chars) : List Chars := bbGo s 0 []

/-- The triple-backtick fence delimiter. -/
def fence : Chars := "```".data

/-- Strip trailing whitespace (the `\s*` of the fenced pattern preceding the
closing fence). -/
def stripTrailingWs (s : Chars) : Chars := (s.reverse.dropWhile pyIsSpace).reverse

/-- Operational model of `re.findall(r'```(?:json)?\s*(.*?)\s*```', text,
dotall and ignorecase)` from `extract_json_objects` method 1: find an
opening fence, optionally consume a case-insensitive `json` tag, skip
whitespace, capture lazily up to the next fence (minus trailing
whitespace), continue after the closing fence. -/
def fencedGo : Nat → Chars → List Chars
  | 0, _ => []
  | fuel + 1, s =>
    match findSubIdx fence s with
    | none => []
    | some i =>
      let afterOpen := s.drop (i + 3)
      let afterTag := if ciStartsWith "json".data afterOpen then afterOpen.drop 4 else afterOpen
      let body := afterTag.dropWhile pyIsSpace
      match findSubIdx fence body with
      | none => []
      | some m => stripTrailingWs (body.take m) :: fencedGo fuel (body.drop (m + 3))

/-- `extract_json_objects` method 1 (markdown code blocks). -/
def extractFenced (s : Chars) : List Chars := fencedGo (s.length + 1) s

/-- Try each alternative literal of a phrase at the head of `s`
(case-insensitive), returning the matched length. -/
def matchPhraseAt : List Chars → Chars → Option Nat
  | [], _ => none
  | a :: rest, s => if ciStartsWith a s then some a.length else matchPhraseAt rest s

/-- Operational model of `re.findall(PHRASE + r'[^\{]*\{.*?\}', text, dotall
and ignorecase)` plus the `match[match.find('{'):]` slice of
`_extract_after_keywords`: at each phrase occurrence, the candidate runs
from the first `{` after the phrase to the first `}` after that `{`
(the non-greedy `.*?`); scanning resumes after the match. -/
def kwGo (alts : List Chars) : Nat → Chars → List Chars
  | 0, _ => []
  | fuel + 1, s =>
    if s.isEmpty then []
    else
      match matchPhraseAt alts s with
      | none => kwGo alts fuel (s.drop 1)
      | some plen =>
        match findIdxChar '{' (s.drop plen) with
        | none => kwGo alts fuel (s.drop 1)
        | some bi =>
          match findIdxChar '}' (((s.drop plen).drop bi).drop 1) with
          | none => kwGo alts fuel (s.drop 1)
          | some ci_ =>
            ((s.drop plen).drop bi).take (ci_ + 2) ::
              kwGo alts fuel (s.drop (plen + bi + 1 + ci_ + 1))

/-- The phrase literals of `_extract_after_keywords`, in source order. -/
def kwPatterns : List (List Chars) :=
  [["here is".data, "here are".data],
   ["response".data],
   ["answer".data],
   ["operation".data],
   ["json".data]]

/-- `DeepSeekClient._extract_after_keywords`. -/
def extractAfterKeywords (s : Chars) : List Chars :=
  kwPatterns.flatMap (fun alts => kwGo alts (s.length + 1) s)

/-- De-duplication preserving first occurrence (`seen` set loop of
`extract_json_objects`). -/
def dedupGo (seen : List Chars) : List Chars → List Chars
  | [] => []
  | c :: rest =>
    if seen.contains c then dedupGo seen rest
    else c :: dedupGo (c :: seen) rest

/-- `DeepSeekClient.extract_json_objects`: fenced blocks, balanced braces,
keyword-anchored slices, concatenated in that order and de-duplicated. -/
def extractJsonObjects (s : Chars) : List Chars :=
  dedupGo [] (extractFenced s ++ extractBalancedBraces s ++ extractAfterKeywords s)

/-- The `"operation"` key. -/
def opKey : Chars := "operation".data

/-- The `"operations"` key. -/
def opsKey : Chars := "operations".data

/-- The `"message"` key. -/
def msgKey : Chars := "message".data

/-- The `VERIFY_COMPLETE` tag. -/
def verifyTok : Chars := "VERIFY_COMPLETE".data

/-- The `NEEDS_RETRY` tag. -/
def retryTok : Chars := "NEEDS_RETRY".data

/-- `DeepSeekClient._extract_operations_from_object`. -/
def extractOperationsFromObject : JValue → List JValue
  | .obj fields =>
    if dictHas opKey fields then [.obj fields]
    else if dictHas opsKey fields then
      match dictGet opsKey fields with
      | some (.arr l) => l
      | _ => []
    else []
  | .arr items =>
    items.filter (fun it =>
      match it with
      | .obj f => dictHas opKey f
      | _ => false)
  | _ => []

/-- The operation-name tokens scanned by
`_parse_conversational_operations`, in source order. -/
def opTypeTokens : List Chars :=
  ["CREATE_FILE".data, "OVERWRITE_FILE".data, "INSERT_LINES".data,
   "DELETE_FILE".data, "DELETE_LINES".data, "MULTIPLE_OPERATIONS".data,
   verifyTok, retryTok]

/-- `DeepSeekClient._parse_conversational_operations`: only the
`VERIFY_COMPLETE` and `NEEDS_RETRY` tokens synthesize an operation carrying
the whole response as message. -/
def parseConversational (s : Chars) : List JValue :=
  opTypeTokens.filterMap (fun tok =>
    if containsSub tok s && (tok = verifyTok || tok = retryTok) then
      some (.obj [(opKey, .str tok), (msgKey, .str s)])
    else none)

/-- The candidate loop of `parse_operations`: decode each candidate, return
the first truthy parse that yields a non-empty operation list. -/
def parseCandsGo : List Chars → Option (List JValue)
  | [] => none
  | c :: rest =>
    let parsed := safeJsonParse c
    if optTruthy parsed then
      let ops := extractOperationsFromObject (parsed.getD .null)
      if ops.isEmpty then parseCandsGo rest else some ops
    else parseCandsGo rest

/-- `DeepSeekClient.parse_operations`: direct whole-response parse first,
then the extracted candidates, then the conversational fallback, then the
empty list.  Total: the source's blanket `except` can never fire because
every callee catches its own exceptions. -/
def parseOperations (s : Chars) : List JValue :=
  let direct := safeJsonParse s
  if optTruthy direct then
    extractOperationsFromObject (direct.getD .null)
  else
    match parseCandsGo (extractJsonObjects s) with
    | some ops => ops
    | none =>
      let conv := parseConversational s
      if conv.isEmpty then [] else conv

/-- Candidate loop instrumented with the list of strings handed to
`safe_json_parse`, in attempt order. -/
def parseCandsTraceGo : List Chars → Option (List JValue) × List Chars
  | [] => (none, [])
  | c :: rest =>
    let parsed := safeJsonParse c
    if optTruthy parsed then
      let ops := extractOperationsFromObject (parsed.getD .null)
      if ops.isEmpty then
        let r := parseCandsTraceGo rest
        (r.1, c :: r.2)
      else (some ops, [c])
    else
      let r := parseCandsTraceGo rest
      (r.1, c :: r.2)

/-- `parse_operations` instrumented with the candidate strings passed to
`safe_json_parse`, in the order attempted (same control flow as
`parseOperations`). -/
def parseOperationsTrace (s : Chars) : List JValue × List Chars :=
  let direct := safeJsonParse s
  if optTruthy direct then
    (extractOperationsFromObject (direct.getD .null), [s])
  else
    let r := parseCandsTraceGo (extractJsonObjects s)
    match r.1 with
    | some ops => (ops, s :: r.2)
    | none =>
      let conv := parseConversational s
      ((if conv.isEmpty then [] else conv), s :: r.2)

/-- The `CREATE_FILE` tag. -/
def createTok : Chars := "CREATE_FILE".data

/-- The `OVERWRITE_FILE` tag. -/
def overwriteTok : Chars := "OVERWRITE_FILE".data

/-- The `INSERT_LINES` tag. -/
def insertTok : Chars := "INSERT_LINES".data

/-- The `DELETE_FILE` tag. -/
def deleteFileTok : Chars := "DELETE_FILE".data

/-- The `DELETE_LINES` tag. -/
def deleteLinesTok : Chars := "DELETE_LINES".data

/-- The `MULTIPLE_OPERATIONS` tag. -/
def multiTok : Chars := "MULTIPLE_OPERATIONS".data

/-- The `"path"` key. -/
def pathKey : Chars := "path".data

/-- The `"content"` key. -/
def contentKey : Chars := "content".data

/-- The `"line"` key. -/
def lineKey : Chars := "line".data

/-- The `"start_line"` key. -/
def startLineKey : Chars := "start_line".data

/-- The `"end_line"` key. -/
def endLineKey : Chars := "end_line".data

/-- `{k: v for k, v in op.items() if v is not None}` from
`validate_operations` (on a Python dict this is a filter). -/
def stripNulls (fields : List (Chars × JValue)) : List (Chars × JValue) :=
  fields.filter (fun kv => !kv.2.isNull)

theorem dictGet_mem {k : Chars} {d : List (Chars × JValue)} {v : JValue}
    (h : dictGet k d = some v) : (k, v) ∈ d := by
  induction d with
  | nil => simp [dictGet] at h
  | cons kv rest ih =>
    obtain ⟨k', v'⟩ := kv
    by_cases hk : k' = k
    · subst hk
      simp [dictGet] at h
      simp [h]
    · simp [dictGet, hk] at h
      exact List.mem_cons_of_mem _ (ih h)

theorem sizeOf_lt_of_dictGet_stripNulls {k : Chars} {fields : List (Chars × JValue)}
    {v : JValue} (h : dictGet k (stripNulls fields) = some v) :
    sizeOf v < sizeOf fields := by
  have hm : (k, v) ∈ stripNulls fields := dictGet_mem h
  have hm2 : (k, v) ∈ fields := List.mem_of_mem_filter hm
  have h3 : sizeOf (k, v) < sizeOf fields := List.sizeOf_lt_of_mem hm2
  simp only [Prod.mk.sizeOf_spec] at h3
  omega

mutual

/-- Per-element body of `DeepSeekClient.validate_operations`: skip
non-dicts and dicts without an `operation` key, strip null-valued fields,
then keep the operation exactly when its per-kind required fields are
present; `MULTIPLE_OPERATIONS` recursively validates its children and is
kept only when the recursive result is non-empty. -/
def validateOne (op : JValue) : List JValue :=
  match op with
  | .obj fields =>
    if dictHas opKey fields then
      let cleaned := stripNulls fields
      let t := dictGet opKey cleaned
      if isStrTag t createTok || isStrTag t overwriteTok then
        if dictHas pathKey cleaned && dictHas contentKey cleaned then [.obj cleaned] else []
      else if isStrTag t insertTok then
        if dictHas pathKey cleaned && dictHas lineKey cleaned && dictHas contentKey cleaned then
          [.obj cleaned]
        else []
      else if isStrTag t deleteFileTok then
        if dictHas pathKey cleaned then [.obj cleaned] else []
      else if isStrTag t deleteLinesTok then
        if dictHas pathKey cleaned && dictHas startLineKey cleaned
            && dictHas endLineKey cleaned then
          [.obj cleaned]
        else []
      else if isStrTag t multiTok then
        match h : dictGet opsKey cleaned with
        | some (.arr nested) =>
          let nv := validateOps nested
          if nv.isEmpty then [] else [.obj (dictSet opsKey (.arr nv) cleaned)]
        | _ => []
      else if isStrTag t verifyTok || isStrTag t retryTok then [.obj cleaned]
      else []
    else []
  | _ => []
termination_by sizeOf op
decreasing_by
  have h1 := sizeOf_lt_of_dictGet_stripNulls h
  simp only [JValue.arr.sizeOf_spec, JValue.obj.sizeOf_spec] at h1 ⊢
  omega

/-- `DeepSeekClient.validate_operations`: element results in order. -/
def validateOps (l : List JValue) : List JValue :=
  match l with
  | [] => []
  | x :: rest => validateOne x ++ validateOps rest
termination_by sizeOf l
decreasing_by
  · simp only [List.cons.sizeOf_spec]; omega
  · simp only [List.cons.sizeOf_spec]; omega

end

/-- The remote repository file tree: path to content, in creation order.
Modelled from the spec: the remote file tree collaborator
(`get`/`put`/`delete`); revision tokens are resolved inside the
collaborator and carry no information at this level. -/
abbrev Store := List (Chars × Chars)

/-- Remote `get(path)`. -/
def storeGet (p : Chars) : Store → Option Chars
  | [] => none
  | (p', c) :: rest => if p' = p then some c else storeGet p rest

/-- Remote `put(path, content)`: replace in place or append. -/
def storeSet (p : Chars) (c : Chars) : Store → Store
  | [] => [(p, c)]
  | (p', c') :: rest => if p' = p then (p, c) :: rest else (p', c') :: storeSet p c rest

/-- Remote `delete(path)`. -/
def storeDel (p : Chars) : Store → Store
  | [] => []
  | (p', c') :: rest => if p' = p then rest else (p', c') :: storeDel p rest

/-- `GitHubManager.create_file`: a PUT without a revision token; the remote
store rejects it when the path already exists. -/
def createFile (st : Store) (p : Chars) (c : Chars) : Except Chars Store :=
  match storeGet p st with
  | some _ => .error ("Failed to create file".data)
  | none => .ok (storeSet p c st)

/-- `GitHubManager.overwrite_file`: update with the fetched revision when
the file exists, transparently create it otherwise. -/
def overwriteFile (st : Store) (p : Chars) (c : Chars) : Except Chars Store :=
  .ok (storeSet p c st)

/-- `GitHubManager.insert_lines` (1-indexed; the new content's lines are
spliced in before the existing line; `line = lineCount+1` appends).  The
out-of-range error text is abbreviated; the source interpolates the line
number and count into the message. -/
def insertLines (st : Store) (p : Chars) (line : Int) (content : Chars) :
    Except Chars Store :=
  match storeGet p st with
  | none => .error ("File does not exist".data)
  | some old =>
    let lines := pySplitNl old
    if line < 1 ∨ line > (lines.length : Int) + 1 then
      .error ("Invalid line number".data)
    else
      let i := (line - 1).toNat
      let ins := pySplitNl content
      overwriteFile st p (pyJoinNl (lines.take i ++ ins ++ lines.drop i))

/-- `GitHubManager.delete_file`. -/
def deleteFileOp (st : Store) (p : Chars) : Except Chars Store :=
  match storeGet p st with
  | none => .error ("File does not exist".data)
  | some _ => .ok (storeDel p st)

/-- `GitHubManager.delete_lines` (1-indexed, inclusive range).  The
out-of-range error text is abbreviated as in `insertLines`. -/
def deleteLines (st : Store) (p : Chars) (startL endL : Int) : Except Chars Store :=
  match storeGet p st with
  | none => .error ("File does not exist".data)
  | some old =>
    let lines := pySplitNl old
    if startL < 1 ∨ endL > (lines.length : Int) ∨ startL > endL then
      .error ("Invalid line range".data)
    else
      overwriteFile st p (pyJoinNl (lines.take (startL - 1).toNat ++ lines.drop endL.toNat))

/-- `operation["path"]`-style required string field: a missing key raises
`KeyError`, a non-string value makes the downstream call raise; both are
modelled as errors. -/
def reqStr (fields : List (Chars × JValue)) (k : Chars) : Except Chars Chars :=
  match dictGet k fields with
  | some (.str s) => .ok s
  | some _ => .error ("TypeError".data)
  | none => .error ("KeyError".data)

/-- `operation["line"]`-style required integer field. -/
def reqInt (fields : List (Chars × JValue)) (k : Chars) : Except Chars Int :=
  match dictGet k fields with
  | some (.num n) => .ok n
  | some _ => .error ("TypeError".data)
  | none => .error ("KeyError".data)

/-- `GitHubManager.apply_operation`.  The `MULTIPLE_OPERATIONS` branch
mirrors the source exactly: the `return results` statement sits inside the
`for` loop (`github_manager.py:200-202`), so only the first child operation
is ever applied; with no children the branch falls through the whole
`if`/`elif` chain and mutates nothing.  Fuel bounds only the nesting depth
and is ample for every input considered. -/
def applyOperation : Nat → Store → JValue → Except Chars Store
  | 0, _, _ => .error ("recursion limit".data)
  | fuel + 1, st, op =>
    match op with
    | .obj fields =>
      let t := dictGet opKey fields
      if isStrTag t multiTok then
        match dictGet opsKey fields with
        | some (.arr []) => .ok st
        | some (.arr (c :: _)) => applyOperation fuel st c
        | none => .ok st
        | some _ => .error ("TypeError".data)
      else if isStrTag t createTok then
        match reqStr fields pathKey, reqStr fields contentKey with
        | .ok p, .ok c => createFile st p c
        | .error e, _ => .error e
        | _, .error e => .error e
      else if isStrTag t overwriteTok then
        match reqStr fields pathKey, reqStr fields contentKey with
        | .ok p, .ok c => overwriteFile st p c
        | .error e, _ => .error e
        | _, .error e => .error e
      else if isStrTag t insertTok then
        match reqStr fields pathKey, reqInt fields lineKey, reqStr fields contentKey with
        | .ok p, .ok line, .ok c => insertLines st p line c
        | .error e, _, _ => .error e
        | _, .error e, _ => .error e
        | _, _, .error e => .error e
      else if isStrTag t deleteFileTok then
        match reqStr fields pathKey with
        | .ok p => deleteFileOp st p
        | .error e => .error e
      else if isStrTag t deleteLinesTok then
        match reqStr fields pathKey, reqInt fields startLineKey, reqInt fields endLineKey with
        | .ok p, .ok sL, .ok eL => deleteLines st p sL eL
        | .error e, _, _ => .error e
        | _, .error e, _ => .error e
        | _, _, .error e => .error e
      else .error ("Unknown operation type".data)
    | _ => .error ("AttributeError".data)

/-- `app.apply_operations_recursive`.  `Except` models the exceptions the
source does not catch (`operation.get` on a non-dict, iterating a non-list
`operations` value); the per-operation `try`/`except` around
`github.apply_operation` is modelled by dropping that operation's error and
continuing.  The returned number is the applied count.  Fuel bounds only
the `MULTIPLE_OPERATIONS` nesting depth. -/
def applyOpsRec : Nat → Store → List JValue → Except Chars (Store × Nat)
  | 0, _, _ => .error ("recursion limit".data)
  | _ + 1, st, [] => .ok (st, 0)
  | fuel + 1, st, op :: rest =>
    match op with
    | .obj fields =>
      let t := dictGet opKey fields
      if isStrTag t verifyTok then .ok (st, 0)
      else if isStrTag t retryTok then applyOpsRec fuel st rest
      else if isStrTag t multiTok then
        match
          (match dictGet opsKey fields with
           | some (.arr l) => Except.ok l
           | none => Except.ok []
           | some _ => Except.error ("TypeError".data)) with
        | .error e => .error e
        | .ok nested =>
          match applyOpsRec fuel st nested with
          | .error e => .error e
          | .ok (st', c') =>
            match applyOpsRec fuel st' rest with
            | .error e => .error e
            | .ok (st'', c'') => .ok (st'', c' + c'')
      else
        match applyOperation (fuel + 1) st op with
        | .ok st' =>
          match applyOpsRec fuel st' rest with
          | .error e => .error e
          | .ok (st'', c) => .ok (st'', c + 1)
        | .error _ => applyOpsRec fuel st rest
    | _ => .error ("AttributeError".data)

/-- Outcome of one `get_latest_deployment` call as seen by the polling
loop: a raised error, an empty deployment list, or a deployment with its id
and status. -/
inductive PollOutcome where
  | qerror : Chars → PollOutcome
  | noDeployment : PollOutcome
  | found : Chars → Chars → PollOutcome

/-- `config.DEPLOYMENT_POLL_INTERVAL` (seconds). -/
def DEPLOYMENT_POLL_INTERVAL : Nat := 10

/-- `config.DEPLOYMENT_TIMEOUT` (seconds). -/
def DEPLOYMENT_TIMEOUT : Nat := 600

/-- The terminal deployment statuses of `wait_for_deployment`. -/
def terminalStatuses : List Chars :=
  ["SUCCESS".data, "FAILED".data, "CRASHED".data, "REMOVED".data]

/-- The synthetic timeout log message (the source interpolates
`DEPLOYMENT_TIMEOUT = 600`). -/
def timeoutMsg : Chars := "Deployment monitoring timed out after 600 seconds".data

/-- The polling loop of `RailwayManager.wait_for_deployment`.  Wall-clock
time is modelled as the accumulated poll-interval sleeps; `polls k` is the
outcome of the `k`-th status query; `logsOf` abstracts
`get_deployment_logs` composed with the per-entry message extraction.  A
query error or an empty result sleeps and retries without touching the
tracked id and status; a terminal status returns it with the logs and the
current id; timeout returns the synthetic `TIMEOUT` triple with the last
known id. -/
def waitLoop (polls : Nat → PollOutcome) (logsOf : Chars → List Chars)
    (elapsed : Nat) (lastId : Option Chars) (lastStatus : Option Chars) (k : Nat) :
    Chars × List Chars × Option Chars :=
  if elapsed < DEPLOYMENT_TIMEOUT then
    match polls k with
    | .qerror _ =>
      waitLoop polls logsOf (elapsed + DEPLOYMENT_POLL_INTERVAL) lastId lastStatus (k + 1)
    | .noDeployment =>
      waitLoop polls logsOf (elapsed + DEPLOYMENT_POLL_INTERVAL) lastId lastStatus (k + 1)
    | .found depId status =>
      if terminalStatuses.contains status then (status, logsOf depId, some depId)
      else
        waitLoop polls logsOf (elapsed + DEPLOYMENT_POLL_INTERVAL)
          (some depId) (some status) (k + 1)
  else ("TIMEOUT".data, [timeoutMsg], lastId)
termination_by DEPLOYMENT_TIMEOUT - elapsed
decreasing_by
  all_goals simp only [DEPLOYMENT_TIMEOUT, DEPLOYMENT_POLL_INTERVAL] at *
  all_goals omega

/-- `RailwayManager.wait_for_deployment` entry point: elapsed time `0`,
tracked id from the optional `initial_deployment_id`, no tracked status. -/
def waitForDeployment (polls : Nat → PollOutcome) (logsOf : Chars → List Chars)
    (initId : Option Chars) : Chars × List Chars × Option Chars :=
  waitLoop polls logsOf 0 initId none 0

/-! ### Line-splitting lemmas -/

theorem pySplitNl_ne_nil (s : Chars) : pySplitNl s ≠ [] := by
  cases s with
  | nil => simp [pySplitNl]
  | cons c cs =>
    simp only [pySplitNl]
    split
    · simp
    · split <;> simp

theorem pySplitNl_no_newline {s l : Chars} (h : l ∈ pySplitNl s) : '\n' ∉ l := by
  induction s generalizing l with
  | nil =>
    simp [pySplitNl] at h
    subst h
    simp
  | cons c cs ih =>
    simp only [pySplitNl] at h
    by_cases hc : c = '\n'
    · rw [if_pos hc] at h
      rcases List.mem_cons.mp h with h1 | h2
      · subst h1; simp
      · exact ih h2
    · rw [if_neg hc] at h
      cases hsp : pySplitNl cs with
      | nil => exact absurd hsp (pySplitNl_ne_nil cs)
      | cons hd tl =>
        rw [hsp] at h
        rcases List.mem_cons.mp h with h1 | h2
        · subst h1
          intro hmem
          rcases List.mem_cons.mp hmem with h3 | h4
          · exact hc h3.symm
          · exact ih (hsp ▸ List.mem_cons_self hd tl) h4
        · exact ih (hsp ▸ List.mem_cons_of_mem hd h2)

theorem pyJoinNl_pySplitNl (s : Chars) : pyJoinNl (pySplitNl s) = s := by
  induction s with
  | nil => simp [pySplitNl, pyJoinNl]
  | cons c cs ih =>
    simp only [pySplitNl]
    by_cases hc : c = '\n'
    · rw [if_pos hc]
      cases hsp : pySplitNl cs with
      | nil => exact absurd hsp (pySplitNl_ne_nil cs)
      | cons hd tl =>
        rw [hsp] at ih
        simp only [pyJoinNl]
        rw [ih, hc]
        simp
    · rw [if_neg hc]
      cases hsp : pySplitNl cs with
      | nil => exact absurd hsp (pySplitNl_ne_nil cs)
      | cons hd tl =>
        rw [hsp] at ih
        cases tl with
        | nil =>
          simp only [pyJoinNl] at ih ⊢
          rw [ih]
        | cons t ts =>
          simp only [pyJoinNl] at ih ⊢
          rw [List.cons_append, ih]

theorem pySplitNl_single {l : Chars} (h : '\n' ∉ l) : pySplitNl l = [l] := by
  induction l with
  | nil => simp [pySplitNl]
  | cons c cs ih =>
    have h1 : c ≠ '\n' := fun hc => h (hc ▸ List.mem_cons_self c cs)
    have h2 : '\n' ∉ cs := fun hc => h (List.mem_cons_of_mem c hc)
    simp only [pySplitNl]
    rw [if_neg h1, ih h2]

theorem pySplitNl_append_cons {x : Chars} (hx : '\n' ∉ x) (t : Chars) :
    pySplitNl (x ++ '\n' :: t) = x :: pySplitNl t := by
  induction x with
  | nil => simp [pySplitNl]
  | cons c cs ih =>
    have h1 : c ≠ '\n' := fun hc => hx (hc ▸ List.mem_cons_self c cs)
    have h2 : '\n' ∉ cs := fun hc => hx (List.mem_cons_of_mem c hc)
    simp only [List.cons_append, pySplitNl, List.append_eq]
    rw [if_neg h1, ih h2]

theorem pySplitNl_pyJoinNl {ls : List Chars} (h0 : ls ≠ [])
    (h1 : ∀ l ∈ ls, '\n' ∉ l) : pySplitNl (pyJoinNl ls) = ls := by
  induction ls with
  | nil => exact absurd rfl h0
  | cons x rest ih =>
    cases rest with
    | nil =>
      simp only [pyJoinNl]
      exact pySplitNl_single (h1 x (List.mem_cons_self x []))
    | cons y ys =>
      simp only [pyJoinNl]
      rw [pySplitNl_append_cons (h1 x (List.mem_cons_self x (y :: ys)))]
      rw [ih (by simp) (fun l hl => h1 l (List.mem_cons_of_mem _ hl))]

/-! ### Store lemmas -/

theorem storeGet_storeSet_self (p : Chars) (c : Chars) (st : Store) :
    storeGet p (storeSet p c st) = some c := by
  induction st with
  | nil => simp [storeSet, storeGet]
  | cons pc rest ih =>
    obtain ⟨p', c'⟩ := pc
    by_cases hp : p' = p
    · simp [storeSet, storeGet, hp]
    · simp [storeSet, storeGet, hp, ih]

theorem storeSet_storeSet (p : Chars) (c₁ c₂ : Chars) (st : Store) :
    storeSet p c₂ (storeSet p c₁ st) = storeSet p c₂ st := by
  induction st with
  | nil => simp [storeSet]
  | cons pc rest ih =>
    obtain ⟨p', c'⟩ := pc
    by_cases hp : p' = p
    · simp [storeSet, hp]
    · simp [storeSet, hp, ih]

theorem storeSet_eq_of_get {p : Chars} {c : Chars} {st : Store}
    (h : storeGet p st = some c) : storeSet p c st = st := by
  induction st with
  | nil => simp [storeGet] at h
  | cons pc rest ih =>
    obtain ⟨p', c'⟩ := pc
    by_cases hp : p' = p
    · subst hp
      simp [storeGet] at h
      simp [storeSet, h]
    · simp [storeGet, hp] at h
      simp [storeSet, hp, ih h]

theorem insertLines_ok (st : Store) (p : Chars) (old : Chars) (line : Int)
    (content : Chars) (hget : storeGet p st = some old)
    (h1 : 1 ≤ line) (h2 : line ≤ ((pySplitNl old).length : Int) + 1) :
    insertLines st p line content =
      .ok (storeSet p (pyJoinNl ((pySplitNl old).take (line - 1).toNat
        ++ pySplitNl content ++ (pySplitNl old).drop (line - 1).toNat)) st) := by
  simp only [insertLines, hget]
  rw [if_neg (by omega)]
  rfl

/-- C4: for a file with `lineCount` lines, `InsertLines` succeeds exactly on
`1 ≤ line ≤ lineCount+1` (splicing the new lines in before the existing
line at that index, so `lineCount+1` appends), and fails with an
out-of-range error otherwise, leaving the tree unchanged. -/
theorem insertLines_range_correct
    (st : Store) (p : Chars) (old : Chars) (line : Int) (content : Chars)
    (hget : storeGet p st = some old) :
    (1 ≤ line ∧ line ≤ ((pySplitNl old).length : Int) + 1 →
      insertLines st p line content =
        .ok (storeSet p (pyJoinNl ((pySplitNl old).take (line - 1).toNat
          ++ pySplitNl content ++ (pySplitNl old).drop (line - 1).toNat)) st)) ∧
    (line < 1 ∨ line > ((pySplitNl old).length : Int) + 1 →
      ∃ e, insertLines st p line content = .error e) := by
  constructor
  · rintro ⟨h1, h2⟩
    exact insertLines_ok st p old line content hget h1 h2
  · intro h
    simp only [insertLines, hget]
    rw [if_pos (by omega)]
    exact ⟨_, rfl⟩

/-- Witness for C4 on a two-line file: inserting at line 3 (= lineCount+1)
appends; inserting at line 0 is rejected. -/
theorem insertLines_range_correct_witness :
    (storeGet "f".data [("f".data, "l1\nl2".data)] = some "l1\nl2".data) ∧
    ((1 : Int) ≤ 3 ∧ (3 : Int) ≤ ((pySplitNl "l1\nl2".data).length : Int) + 1) ∧
    insertLines [("f".data, "l1\nl2".data)] "f".data 3 "A".data =
      .ok (storeSet "f".data (pyJoinNl ((pySplitNl "l1\nl2".data).take ((3 : Int) - 1).toNat
        ++ pySplitNl "A".data ++ (pySplitNl "l1\nl2".data).drop ((3 : Int) - 1).toNat))
        [("f".data, "l1\nl2".data)]) ∧
    ((0 : Int) < 1 ∨ (0 : Int) > ((pySplitNl "l1\nl2".data).length : Int) + 1) ∧
    (∃ e, insertLines [("f".data, "l1\nl2".data)] "f".data 0 "A".data = .error e) :=
  ⟨rfl, by decide,
   (insertLines_range_correct [("f".data, "l1\nl2".data)] "f".data "l1\nl2".data 3
     "A".data rfl).1 (by decide),
   by decide,
   (insertLines_range_correct [("f".data, "l1\nl2".data)] "f".data "l1\nl2".data 0
     "A".data rfl).2 (by decide)⟩

/-- C5: inserting `k` lines at a valid line `L` and then deleting lines
`L .. L+k-1` restores the original tree exactly. -/
theorem insert_delete_round_trip
    (st : Store) (p : Chars) (old : Chars) (L : Int) (content : Chars) (st' : Store)
    (hget : storeGet p st = some old)
    (h1 : 1 ≤ L) (h2 : L ≤ ((pySplitNl old).length : Int) + 1)
    (hins : insertLines st p L content = .ok st') :
    deleteLines st' p L (L + ((pySplitNl content).length : Int) - 1) = .ok st := by
  have hins' := insertLines_ok st p old L content hget h1 h2
  rw [hins'] at hins
  replace hins := (Except.ok.inj hins).symm
  set lines := pySplitNl old with hlines
  set ins := pySplitNl content with hins2
  set i := (L - 1).toNat with hi
  set k := ins.length with hk
  have hiLe : i ≤ lines.length := by omega
  have hk1 : 1 ≤ k := by
    cases hc : pySplitNl content with
    | nil => exact absurd hc (pySplitNl_ne_nil content)
    | cons a b => simp [hk, hins2, hc]
  set newLines := lines.take i ++ ins ++ lines.drop i with hnl
  have hlen : newLines.length = lines.length + k := by
    simp only [hnl, List.length_append, List.length_take, List.length_drop]
    omega
  have hnlNe : newLines ≠ [] := by
    apply List.ne_nil_of_length_pos
    omega
  have hnlNoNl : ∀ l ∈ newLines, '\n' ∉ l := by
    intro l hl
    rcases List.mem_append.mp hl with hl1 | hl2
    · rcases List.mem_append.mp hl1 with hl3 | hl4
      · exact pySplitNl_no_newline (hlines ▸ List.mem_of_mem_take hl3)
      · exact pySplitNl_no_newline (hins2 ▸ hl4)
    · exact pySplitNl_no_newline (hlines ▸ List.mem_of_mem_drop hl2)
  have hsplit : pySplitNl (pyJoinNl newLines) = newLines :=
    pySplitNl_pyJoinNl hnlNe hnlNoNl
  have hgets : storeGet p st' = some (pyJoinNl newLines) := by
    rw [hins]; exact storeGet_storeSet_self p _ st
  simp only [deleteLines, hgets, hsplit]
  rw [if_neg (by push_neg; refine ⟨by omega, by omega, by omega⟩)]
  have htoNat2 : (L + (k : Int) - 1).toNat = i + k := by omega
  rw [htoNat2]
  have htake : newLines.take (L - 1).toNat = lines.take i := by
    rw [← hi, hnl, List.append_assoc]
    exact List.take_left' (by rw [List.length_take]; omega)
  have hdrop : newLines.drop (i + k) = lines.drop i := by
    rw [hnl]
    have hlen2 : (lines.take i ++ ins).length = i + k := by
      rw [List.length_append, List.length_take]; omega
    exact List.drop_left' hlen2
  rw [htake, hdrop, List.take_append_drop]
  rw [hlines, pyJoinNl_pySplitNl]
  simp only [overwriteFile]
  rw [hins, storeSet_storeSet, storeSet_eq_of_get hget]

/-- Witness for C5: inserting two lines at line 2 of a two-line file and
deleting lines 2-3 restores the original tree. -/
theorem insert_delete_round_trip_witness :
    (storeGet "f".data [("f".data, "l1\nl2".data)] = some "l1\nl2".data) ∧
    ((1 : Int) ≤ 2) ∧ ((2 : Int) ≤ ((pySplitNl "l1\nl2".data).length : Int) + 1) ∧
    (insertLines [("f".data, "l1\nl2".data)] "f".data 2 "A\nB".data =
      .ok [("f".data, "l1\nA\nB\nl2".data)]) ∧
    deleteLines [("f".data, "l1\nA\nB\nl2".data)] "f".data 2
      (2 + ((pySplitNl "A\nB".data).length : Int) - 1) = .ok [("f".data, "l1\nl2".data)] :=
  ⟨rfl, by decide, by decide, rfl,
   insert_delete_round_trip [("f".data, "l1\nl2".data)] "f".data "l1\nl2".data 2
     "A\nB".data [("f".data, "l1\nA\nB\nl2".data)] rfl (by decide) (by decide) rfl⟩

/-- C1 (code bug evidence): `GitHubManager.apply_operation` applied to a
`MULTIPLE_OPERATIONS` with two `CREATE_FILE` children mutates only the
first child's file — the `return results` statement sits inside the `for`
loop (`github_manager.py:202`) — while the application-level recursive
applier (`app.apply_operations_recursive`) applies both children in order,
which is the documented intent. -/
theorem applyOperation_multi_first_child_only :
    applyOperation 5 []
      (JValue.obj [(opKey, .str multiTok), (opsKey, .arr
        [JValue.obj [(opKey, .str createTok), (pathKey, .str "a.py".data),
           (contentKey, .str "x".data)],
         JValue.obj [(opKey, .str createTok), (pathKey, .str "b.py".data),
           (contentKey, .str "y".data)]])]) = .ok [("a.py".data, "x".data)] ∧
    storeGet "b.py".data [("a.py".data, "x".data)] = none ∧
    applyOpsRec 5 []
      [JValue.obj [(opKey, .str multiTok), (opsKey, .arr
        [JValue.obj [(opKey, .str createTok), (pathKey, .str "a.py".data),
           (contentKey, .str "x".data)],
         JValue.obj [(opKey, .str createTok), (pathKey, .str "b.py".data),
           (contentKey, .str "y".data)]])]] =
      .ok ([("a.py".data, "x".data), ("b.py".data, "y".data)], 2) :=
  ⟨rfl, rfl, rfl⟩

/-- C10: a top-level `VERIFY_COMPLETE` at position `i` of the sequence given
to the recursive applier stops application there: the resulting tree and
applied count are exactly those of the prefix before position `i`; nothing
after it is attempted. -/
theorem applyOpsRec_verify_stops
    (fuel : Nat) (st : Store) (pre post : List JValue) (vf : List (Chars × JValue))
    (hv : isStrTag (dictGet opKey vf) verifyTok = true) :
    applyOpsRec fuel st (pre ++ JValue.obj vf :: post) = applyOpsRec fuel st pre := by
  induction pre generalizing st fuel with
  | nil =>
    cases fuel with
    | zero => rfl
    | succ f =>
      simp only [List.nil_append, applyOpsRec, hv]
      rfl
  | cons op pre' ih =>
    cases fuel with
    | zero => rfl
    | succ f =>
      cases op with
      | obj fields =>
        simp only [List.cons_append, applyOpsRec, List.append_eq]
        by_cases h1 : isStrTag (dictGet opKey fields) verifyTok = true
        · simp [h1]
        · simp only [if_neg h1]
          by_cases h2 : isStrTag (dictGet opKey fields) retryTok = true
          · simp only [if_pos h2]
            apply ih
          · simp only [if_neg h2]
            by_cases h3 : isStrTag (dictGet opKey fields) multiTok = true
            · simp only [if_pos h3]
              generalize (match dictGet opsKey fields with
                 | some (.arr l) => Except.ok l
                 | none => Except.ok ([] : List JValue)
                 | some _ => Except.error ("TypeError".data)) = nres
              cases nres with
              | error e => rfl
              | ok nested =>
                dsimp only
                cases hrec : applyOpsRec f st nested with
                | error e => rfl
                | ok sc =>
                  obtain ⟨st', c'⟩ := sc
                  dsimp only
                  rw [ih]
            · simp only [if_neg h3]
              cases happ : applyOperation (f + 1) st (JValue.obj fields) with
              | ok st' =>
                dsimp only
                rw [ih]
              | error e =>
                dsimp only
                apply ih
      | null => rfl
      | bool b => rfl
      | num n => rfl
      | str s2 => rfl
      | arr l => rfl

/-- Witness for C10: a `VERIFY_COMPLETE` after one `CREATE_FILE` and before
another stops application after the first. -/
theorem applyOpsRec_verify_stops_witness :
    isStrTag (dictGet opKey [(opKey, JValue.str verifyTok)]) verifyTok = true ∧
    applyOpsRec 7 []
      ([JValue.obj [(opKey, .str createTok), (pathKey, .str "a.py".data),
          (contentKey, .str "x".data)]] ++
        JValue.obj [(opKey, JValue.str verifyTok)] ::
          [JValue.obj [(opKey, .str createTok), (pathKey, .str "b.py".data),
            (contentKey, .str "y".data)]]) =
      applyOpsRec 7 []
        [JValue.obj [(opKey, .str createTok), (pathKey, .str "a.py".data),
          (contentKey, .str "x".data)]] :=
  ⟨rfl, applyOpsRec_verify_stops 7 []
    [JValue.obj [(opKey, .str createTok), (pathKey, .str "a.py".data),
      (contentKey, .str "x".data)]]
    [JValue.obj [(opKey, .str createTok), (pathKey, .str "b.py".data),
      (contentKey, .str "y".data)]]
    [(opKey, JValue.str verifyTok)] rfl⟩

theorem waitLoop_all_errors (d : Nat) :
    ∀ (polls : Nat → PollOutcome) (logsOf : Chars → List Chars)
      (elapsed : Nat) (lastId lastStatus : Option Chars) (k : Nat),
      DEPLOYMENT_TIMEOUT - elapsed ≤ d →
      (∀ n, ∃ e, polls n = .qerror e) →
      waitLoop polls logsOf elapsed lastId lastStatus k =
        ("TIMEOUT".data, [timeoutMsg], lastId) := by
  induction d with
  | zero =>
    intro polls logsOf elapsed lastId lastStatus k hd herr
    have h6 : ¬ elapsed < DEPLOYMENT_TIMEOUT := by
      simp only [DEPLOYMENT_TIMEOUT] at hd ⊢
      omega
    rw [waitLoop, if_neg h6]
  | succ d ih =>
    intro polls logsOf elapsed lastId lastStatus k hd herr
    by_cases hel : elapsed < DEPLOYMENT_TIMEOUT
    · obtain ⟨e, he⟩ := herr k
      rw [waitLoop, if_pos hel, he]
      apply ih
      · simp only [DEPLOYMENT_TIMEOUT, DEPLOYMENT_POLL_INTERVAL] at hd hel ⊢
        omega
      · exact herr
    · rw [waitLoop, if_neg hel]

/-- C6: a status-query failure never changes the poller's tracked state or
aborts it — the loop continues with the same last id and status after one
poll-interval sleep — and a poller whose every status query errors returns
`(TIMEOUT, [synthetic timeout message], initial id or none)` when the
timeout elapses, rather than raising. -/
theorem waitLoop_error_resilient_and_timeout :
    (∀ (polls : Nat → PollOutcome) (logsOf : Chars → List Chars)
       (elapsed : Nat) (lastId lastStatus : Option Chars) (k : Nat) (e : Chars),
       elapsed < DEPLOYMENT_TIMEOUT → polls k = .qerror e →
       waitLoop polls logsOf elapsed lastId lastStatus k =
         waitLoop polls logsOf (elapsed + DEPLOYMENT_POLL_INTERVAL) lastId lastStatus (k + 1)) ∧
    (∀ (polls : Nat → PollOutcome) (logsOf : Chars → List Chars) (initId : Option Chars),
       (∀ n, ∃ e, polls n = .qerror e) →
       waitForDeployment polls logsOf initId = ("TIMEOUT".data, [timeoutMsg], initId)) := by
  constructor
  · intro polls logsOf elapsed lastId lastStatus k e hel he
    rw [waitLoop, if_pos hel, he]
  · intro polls logsOf initId herr
    exact waitLoop_all_errors DEPLOYMENT_TIMEOUT polls logsOf 0 initId none 0
      (Nat.sub_le _ _) herr

/-- Witness for C6: with every query erroring, the poller returns the
synthetic timeout triple carrying the initial deployment id. -/
theorem waitLoop_error_resilient_and_timeout_witness :
    ((fun _ : Nat => PollOutcome.qerror "boom".data) 0 = PollOutcome.qerror "boom".data) ∧
    waitForDeployment (fun _ => .qerror "boom".data) (fun _ => []) (some "d1".data) =
      ("TIMEOUT".data, [timeoutMsg], some "d1".data) :=
  ⟨rfl, waitLoop_error_resilient_and_timeout.2 (fun _ => .qerror "boom".data)
    (fun _ => []) (some "d1".data) (fun _ => ⟨"boom".data, rfl⟩)⟩

theorem parseCandsGo_none {cands : List Chars}
    (h : ∀ c ∈ cands, optTruthy (safeJsonParse c) = false) :
    parseCandsGo cands = none := by
  induction cands with
  | nil => rfl
  | cons c rest ih =>
    have hc := h c (List.mem_cons_self c rest)
    simp only [parseCandsGo, hc, Bool.false_eq_true, if_false]
    exact ih (fun x hx => h x (List.mem_cons_of_mem c hx))

theorem parseConversational_empty {s : Chars}
    (h1 : containsSub verifyTok s = false) (h2 : containsSub retryTok s = false) :
    parseConversational s = [] := by
  apply List.filterMap_eq_nil_iff.mpr
  intro tok _
  by_cases hv : tok = verifyTok
  · subst hv; simp [h1]
  · by_cases hr : tok = retryTok
    · subst hr; simp [h2]
    · simp [hv, hr]

/-- C2: when no candidate (the whole response included) parses to a truthy
value and the raw text carries no `VERIFY_COMPLETE`/`NEEDS_RETRY` token,
`parse_operations` returns the empty sequence.  The embedding is a total
function — every exception of the source is caught before reaching
`parse_operations`, so parsing never raises. -/
theorem parseOperations_unparseable_empty (s : Chars)
    (hdirect : optTruthy (safeJsonParse s) = false)
    (hcands : ∀ c ∈ extractJsonObjects s, optTruthy (safeJsonParse c) = false)
    (hv : containsSub verifyTok s = false)
    (hr : containsSub retryTok s = false) :
    parseOperations s = [] := by
  simp only [parseOperations, hdirect, Bool.false_eq_true, if_false]
  rw [parseCandsGo_none hcands, parseConversational_empty hv hr]
  rfl

/-- Witness for C2: plain prose yields no candidates, no parse, no signal
token, and the empty operation sequence. -/
theorem parseOperations_unparseable_empty_witness :
    optTruthy (safeJsonParse "hello world".data) = false ∧
    (∀ c ∈ extractJsonObjects "hello world".data,
      optTruthy (safeJsonParse c) = false) ∧
    containsSub verifyTok "hello world".data = false ∧
    containsSub retryTok "hello world".data = false ∧
    parseOperations "hello world".data = [] :=
  ⟨by decide, by decide, by decide, by decide,
   parseOperations_unparseable_empty "hello world".data
     (by decide) (by decide) (by decide) (by decide)⟩

/-- C3 (amended): the whole response text is the FIRST candidate handed to
`safe_json_parse` — not the last — and when that whole-response parse is
truthy no structured candidate is tried at all. -/
theorem parseOperationsTrace_whole_first (s : Chars) :
    (parseOperationsTrace s).2.head? = some s ∧
    (optTruthy (safeJsonParse s) = true → (parseOperationsTrace s).2 = [s]) := by
  constructor
  · by_cases h : optTruthy (safeJsonParse s) = true
    · simp [parseOperationsTrace, h]
    · simp only [parseOperationsTrace, Bool.not_eq_true] at h ⊢
      rw [h]
      simp only [Bool.false_eq_true, if_false]
      cases (parseCandsTraceGo (extractJsonObjects s)).1 <;> simp
  · intro h
    simp [parseOperationsTrace, h]

/-- The input of the C3 counterexample. -/
def c3text : Chars := "response: \x7bnot json\x7d end".data

/-- C3 counterexample: on this response the candidate attempt order is
whole response first, structured candidate second — the whole trimmed
response is the first candidate tried and is not the last. -/
theorem parseOperationsTrace_whole_first_counterexample :
    (parseOperationsTrace c3text).2 = [c3text, "\x7bnot json\x7d".data] ∧
    (parseOperationsTrace c3text).2.head? = some c3text ∧
    (parseOperationsTrace c3text).2.getLast? = some "\x7bnot json\x7d".data ∧
    "\x7bnot json\x7d".data ≠ c3text :=
  ⟨rfl, rfl, rfl, by decide⟩

/-- Witness for C3 (amended) on a pure-JSON response: the whole response
parses truthily and is the only candidate tried. -/
theorem parseOperationsTrace_whole_first_witness :
    optTruthy (safeJsonParse "\x7b\"operation\": \"VERIFY_COMPLETE\"\x7d".data) = true ∧
    (parseOperationsTrace "\x7b\"operation\": \"VERIFY_COMPLETE\"\x7d".data).2 =
      ["\x7b\"operation\": \"VERIFY_COMPLETE\"\x7d".data] :=
  ⟨by decide,
   (parseOperationsTrace_whole_first "\x7b\"operation\": \"VERIFY_COMPLETE\"\x7d".data).2
     (by decide)⟩

theorem findIdxChar_spec {ch : Char} {s : Chars} {i : Nat}
    (h : findIdxChar ch s = some i) :
    ∃ pre suf, s = pre ++ ch :: suf ∧ pre.length = i ∧ ch ∉ pre := by
  induction s generalizing i with
  | nil => simp [findIdxChar] at h
  | cons c cs ih =>
    by_cases hc : c = ch
    · subst hc
      simp [findIdxChar] at h
      subst h
      exact ⟨[], cs, rfl, rfl, by simp⟩
    · simp only [findIdxChar, if_neg hc, Option.map_eq_some'] at h
      obtain ⟨j, hj, hji⟩ := h
      obtain ⟨pre, suf, hs, hlen, hmem⟩ := ih hj
      refine ⟨c :: pre, suf, by rw [hs]; rfl, by simp [hlen, hji], ?_⟩
      intro hm
      rcases List.mem_cons.mp hm with h1 | h2
      · exact hc h1.symm
      · exact hmem h2

theorem kwGo_candidate_shape {alts : List Chars} {fuel : Nat} {s c : Chars}
    (h : c ∈ kwGo alts fuel s) :
    ∃ body, c = '{' :: body ++ ['}'] ∧ '}' ∉ body := by
  induction fuel generalizing s with
  | zero => simp [kwGo] at h
  | succ fuel ih =>
    cases s with
    | nil => simp [kwGo] at h
    | cons c0 cs0 =>
      rw [kwGo] at h
      simp only [List.isEmpty_cons, Bool.false_eq_true, if_false] at h
      cases hm : matchPhraseAt alts (c0 :: cs0) with
      | none =>
        rw [hm] at h
        exact ih h
      | some plen =>
        rw [hm] at h
        dsimp only at h
        cases hb : findIdxChar '{' ((c0 :: cs0).drop plen) with
        | none =>
          rw [hb] at h
          exact ih h
        | some bi =>
          rw [hb] at h
          dsimp only at h
          cases hbr : findIdxChar '}' ((((c0 :: cs0).drop plen).drop bi).drop 1) with
          | none =>
            rw [hbr] at h
            exact ih h
          | some ci_ =>
            rw [hbr] at h
            dsimp only at h
            rcases List.mem_cons.mp h with hc | hrest
            · obtain ⟨pre, suf, hs, hlen, _⟩ := findIdxChar_spec hb
              have hdropb : ((c0 :: cs0).drop plen).drop bi = '{' :: suf := by
                rw [hs]
                exact List.drop_left' hlen
              rw [hdropb] at hbr
              obtain ⟨pre2, suf2, hs2, hlen2, hmem2⟩ := findIdxChar_spec hbr
              simp only [List.drop_one, List.tail_cons] at hs2
              refine ⟨pre2, ?_, hmem2⟩
              rw [hc, hdropb, hs2]
              have htake : (pre2 ++ '}' :: suf2).take (ci_ + 1) = pre2 ++ ['}'] := by
                rw [List.take_append_eq_append_take]
                rw [List.take_of_length_le (by omega), hlen2]
                simp
              rw [show ci_ + 2 = ci_ + 1 + 1 from rfl, List.take_succ_cons, htake]
              simp
            · exact ih hrest

/-- C8 (amended): every candidate produced by the keyword-anchored strategy
runs from a `{` to the FIRST following `}` — it contains exactly one `}`,
as its final character (the non-greedy `.*?` of the source patterns) — not
to the last `}` of the remaining text. -/
theorem extractAfterKeywords_shape {s c : Chars}
    (h : c ∈ extractAfterKeywords s) :
    ∃ body, c = '{' :: body ++ ['}'] ∧ '}' ∉ body := by
  simp only [extractAfterKeywords, List.mem_flatMap] at h
  obtain ⟨alts, _, hc⟩ := h
  exact kwGo_candidate_shape hc

/-- Last occurrence of a character. -/
def findLastIdxChar (ch : Char) (s : Chars) : Option Nat :=
  (findIdxChar ch s.reverse).map (fun i => s.length - 1 - i)

/-- Modelled from the spec: the keyword-anchored strategy takes "the
substring from there [the first brace after the phrase] to the *last* `}`
in the remaining text" as the candidate. -/
def specKeywordCandidateFrom (s : Chars) (phraseEnd : Nat) : Option Chars :=
  let afterPhrase := s.drop phraseEnd
  match findIdxChar '{' afterPhrase with
  | none => none
  | some bi =>
    let fromBrace := afterPhrase.drop bi
    match findLastIdxChar '}' fromBrace with
    | none => none
    | some li => some (fromBrace.take (li + 1))

/-- The input of the C8 counterexample. -/
def c8text : Chars := "response \x7ba\x7d b\x7d".data

/-- C8 counterexample: after the phrase `response` the source's extraction
stops at the first `}` and yields `{a}`, while the spec's description (to
the last `}` of the remaining text) predicts `{a} b}`, which is never
produced. -/
theorem extractAfterKeywords_first_close_counterexample :
    extractAfterKeywords c8text = ["\x7ba\x7d".data] ∧
    specKeywordCandidateFrom c8text 8 = some "\x7ba\x7d b\x7d".data ∧
    "\x7ba\x7d b\x7d".data ∉ extractAfterKeywords c8text :=
  ⟨rfl, rfl, by decide⟩

/-- Witness for C8 (amended): the candidate `{a}` extracted from the
counterexample text ends at its unique closing brace. -/
theorem extractAfterKeywords_shape_witness :
    "\x7ba\x7d".data ∈ extractAfterKeywords c8text ∧
    ∃ body, "\x7ba\x7d".data = '{' :: body ++ ['}'] ∧ '}' ∉ body :=
  ⟨by decide, @extractAfterKeywords_shape c8text "\x7ba\x7d".data (by decide)⟩

theorem strat3Go_attempts_le (s : Chars) (pairs : List (Nat × Nat)) :
    (strat3Go s pairs).2 ≤ pairs.length := by
  induction pairs with
  | nil => simp [strat3Go]
  | cons p rest ih =>
    obtain ⟨len, st⟩ := p
    simp only [strat3Go, List.length_cons]
    by_cases hb : bracedShape (sublistAt s st len) = true
    · rw [if_pos hb]
      cases hj : jsonLoads (sublistAt s st len) with
      | some v => simp
      | none => simp only []; omega
    · rw [if_neg hb]
      omega

theorem sum_range_add_one (n : Nat) :
    2 * ((List.range n).map (fun j => j + 1)).sum = n * (n + 1) := by
  induction n with
  | zero => simp
  | succ n ih =>
    rw [List.range_succ, List.map_append, List.sum_append]
    simp only [List.map_cons, List.map_nil, List.sum_cons, List.sum_nil]
    calc 2 * (((List.range n).map (fun j => j + 1)).sum + (n + 1 + 0))
        = 2 * ((List.range n).map (fun j => j + 1)).sum + 2 * (n + 1) := by ring
      _ = n * (n + 1) + 2 * (n + 1) := by rw [ih]
      _ = (n + 1) * (n + 1 + 1) := by ring

theorem strat3Pairs_length (n : Nat) : 2 * (strat3Pairs n).length = n * (n + 1) := by
  have hf : (List.length ∘ fun j => (List.range (j + 1)).map (fun st => (n - j, st))) =
      fun j => j + 1 := by
    funext j
    simp
  have h1 : (strat3Pairs n).length = ((List.range n).map (fun j => j + 1)).sum := by
    rw [strat3Pairs, List.length_flatMap, hf]
  rw [h1]
  exact sum_range_add_one n

theorem strat3Run_attempts_bound (s : Chars) :
    2 * (strat3Run s).2 ≤ s.length * (s.length + 1) := by
  have h1 : (strat3Run s).2 ≤ (strat3Pairs s.length).length :=
    strat3Go_attempts_le s (strat3Pairs s.length)
  have h2 := strat3Pairs_length s.length
  generalize hM : s.length * (s.length + 1) = M at h2 ⊢
  omega

/-- C9 (amended): the longest-valid-substring repair step has no safety
ceiling — it is bounded only by the full `{...}`-shaped enumeration, at
most `n(n+1)/2` decode attempts on an `n`-character string — and it can
exceed the claim's example ceiling of 200: on a 32-character input it
performs 256 decode attempts. -/
theorem strat3_attempts_quadratic_no_ceiling :
    (∀ s : Chars, 2 * (strat3Run s).2 ≤ s.length * (s.length + 1)) ∧
    (strat3Run (List.replicate 16 '{' ++ List.replicate 16 '}')).2 = 256 ∧
    200 < (strat3Run (List.replicate 16 '{' ++ List.replicate 16 '}')).2 :=
  ⟨strat3Run_attempts_bound, by decide, by decide⟩

/-- C9 counterexample: on this 32-character unbalanced-brace input the
repair step performs 256 decode attempts — exceeding the 200-combination
ceiling the claim prescribes — succeeding only at the very last
length/offset combination, whose value `safe_json_parse` then returns. -/
theorem strat3_ceiling_counterexample :
    (List.replicate 16 '{' ++ List.replicate 16 '}' : Chars).length = 32 ∧
    ¬ (strat3Run (List.replicate 16 '{' ++ List.replicate 16 '}')).2 ≤ 200 ∧
    safeJsonParse (List.replicate 16 '{' ++ List.replicate 16 '}') =
      some (JValue.obj []) :=
  ⟨by decide, by decide, rfl⟩

/-! ### Dict lemmas for validator idempotence -/

theorem isStrTag_true_iff {v : Option JValue} {tok : Chars} :
    isStrTag v tok = true ↔ v = some (.str tok) := by
  cases v with
  | none => simp [isStrTag]
  | some jv => cases jv <;> simp [isStrTag]

theorem dictGet_dictSet_self (k : Chars) (v : JValue) (d : List (Chars × JValue)) :
    dictGet k (dictSet k v d) = some v := by
  induction d with
  | nil => simp [dictSet, dictGet]
  | cons kv rest ih =>
    obtain ⟨k', v'⟩ := kv
    by_cases hk : k' = k
    · simp [dictSet, hk, dictGet]
    · simp [dictSet, hk, dictGet, ih]

theorem dictGet_dictSet_ne {k k' : Chars} (h : k' ≠ k) (v : JValue)
    (d : List (Chars × JValue)) : dictGet k' (dictSet k v d) = dictGet k' d := by
  induction d with
  | nil =>
    simp only [dictSet, dictGet]
    rw [if_neg (fun hh => h hh.symm)]
  | cons kv rest ih =>
    obtain ⟨k'', v''⟩ := kv
    by_cases hk : k'' = k
    · subst hk
      simp only [dictSet, if_pos rfl, dictGet]
      rw [if_neg (fun hh => h hh.symm), if_neg (fun hh => h hh.symm)]
    · simp only [dictSet, if_neg hk, dictGet]
      by_cases hk2 : k'' = k'
      · rw [if_pos hk2, if_pos hk2]
      · rw [if_neg hk2, if_neg hk2]
        exact ih

theorem dictSet_dictSet_same (k : Chars) (v w : JValue) (d : List (Chars × JValue)) :
    dictSet k v (dictSet k w d) = dictSet k v d := by
  induction d with
  | nil => simp [dictSet]
  | cons kv rest ih =>
    obtain ⟨k', v'⟩ := kv
    by_cases hk : k' = k
    · simp [dictSet, hk]
    · simp [dictSet, hk, ih]

theorem mem_dictSet {k : Chars} {v : JValue} {d : List (Chars × JValue)}
    {kv : Chars × JValue} (h : kv ∈ dictSet k v d) : kv = (k, v) ∨ kv ∈ d := by
  induction d with
  | nil =>
    simp [dictSet] at h
    left
    exact h
  | cons kv' rest ih =>
    obtain ⟨k', v'⟩ := kv'
    by_cases hk : k' = k
    · rw [dictSet, if_pos hk] at h
      rcases List.mem_cons.mp h with h1 | h1
      · left; exact h1
      · right; exact List.mem_cons_of_mem _ h1
    · rw [dictSet, if_neg hk] at h
      rcases List.mem_cons.mp h with h1 | h1
      · right; exact h1 ▸ List.mem_cons_self _ _
      · rcases ih h1 with h2 | h2
        · left; exact h2
        · right; exact List.mem_cons_of_mem _ h2

theorem stripNulls_nonNull {fields : List (Chars × JValue)} {kv : Chars × JValue}
    (h : kv ∈ stripNulls fields) : kv.2.isNull = false := by
  have h2 := List.of_mem_filter h
  simpa using h2

theorem stripNulls_eq_self {d : List (Chars × JValue)}
    (h : ∀ kv ∈ d, kv.2.isNull = false) : stripNulls d = d := by
  apply List.filter_eq_self.mpr
  intro a ha
  simp [h a ha]

theorem dictHas_of_get {k : Chars} {d : List (Chars × JValue)} {v : JValue}
    (h : dictGet k d = some v) : dictHas k d = true := by
  simp [dictHas, h]

theorem validateOps_nil : validateOps [] = [] := by
  rw [validateOps]

theorem validateOps_cons (x : JValue) (rest : List JValue) :
    validateOps (x :: rest) = validateOne x ++ validateOps rest := by
  rw [validateOps]

theorem validateOps_append (a b : List JValue) :
    validateOps (a ++ b) = validateOps a ++ validateOps b := by
  induction a with
  | nil => rw [validateOps_nil]; rfl
  | cons x rest ih =>
    rw [List.cons_append, validateOps_cons, validateOps_cons, ih, List.append_assoc]

theorem dictHas_opKey_of_isStrTag {d : List (Chars × JValue)} {tok : Chars}
    (h : isStrTag (dictGet opKey d) tok = true) : dictHas opKey d = true := by
  rw [isStrTag_true_iff] at h
  exact dictHas_of_get h

theorem stripNulls_stripNulls (fields : List (Chars × JValue)) :
    stripNulls (stripNulls fields) = stripNulls fields :=
  stripNulls_eq_self (fun _ hkv => stripNulls_nonNull hkv)

theorem validate_idem_bounded :
    ∀ n : Nat, ∀ l : List JValue, sizeOf l ≤ n →
      validateOps (validateOps l) = validateOps l := by
  intro n
  induction n with
  | zero =>
    intro l hl
    cases l with
    | nil => rw [validateOps_nil, validateOps_nil]
    | cons x rest =>
      exfalso
      simp only [List.cons.sizeOf_spec] at hl
      omega
  | succ n ih =>
    intro l hl
    cases l with
    | nil => rw [validateOps_nil, validateOps_nil]
    | cons x rest =>
      simp only [List.cons.sizeOf_spec] at hl
      rw [validateOps_cons, validateOps_append, ih rest (by omega)]
      congr 1
      -- ⊢ validateOps (validateOne x) = validateOne x
      cases x with
      | null => simp [validateOne, validateOps_nil]
      | bool b => simp [validateOne, validateOps_nil]
      | num m => simp [validateOne, validateOps_nil]
      | str s => simp [validateOne, validateOps_nil]
      | arr a => simp [validateOne, validateOps_nil]
      | obj fields =>
        simp only [JValue.obj.sizeOf_spec] at hl
        by_cases hop : dictHas opKey fields = true
        · rw [validateOne]
          simp only [hop, if_true]
          by_cases hc1 : (isStrTag (dictGet opKey (stripNulls fields)) createTok
              || isStrTag (dictGet opKey (stripNulls fields)) overwriteTok) = true
          · simp only [hc1, if_true]
            by_cases hk : (dictHas pathKey (stripNulls fields)
                && dictHas contentKey (stripNulls fields)) = true
            · simp only [hk, if_true]
              rw [validateOps_cons, validateOps_nil, List.append_nil]
              have hhas2 : dictHas opKey (stripNulls fields) = true := by
                rcases Bool.or_eq_true_iff.mp hc1 with h | h <;>
                  exact dictHas_opKey_of_isStrTag h
              rw [validateOne]
              simp only [hhas2, if_true, stripNulls_stripNulls, hc1, hk]
            · simp only [hk, Bool.false_eq_true, if_false, validateOps_nil]
          · simp only [hc1, Bool.false_eq_true, if_false]
            by_cases hc2 : isStrTag (dictGet opKey (stripNulls fields)) insertTok = true
            · simp only [hc2, if_true]
              by_cases hk : (dictHas pathKey (stripNulls fields)
                  && dictHas lineKey (stripNulls fields)
                  && dictHas contentKey (stripNulls fields)) = true
              · simp only [hk, if_true]
                rw [validateOps_cons, validateOps_nil, List.append_nil]
                have hhas2 : dictHas opKey (stripNulls fields) = true :=
                  dictHas_opKey_of_isStrTag hc2
                rw [validateOne]
                simp only [hhas2, if_true, stripNulls_stripNulls, hc1, hc2, hk,
                  Bool.false_eq_true, if_false]
              · simp only [hk, Bool.false_eq_true, if_false, validateOps_nil]
            · simp only [hc2, Bool.false_eq_true, if_false]
              by_cases hc3 : isStrTag (dictGet opKey (stripNulls fields)) deleteFileTok = true
              · simp only [hc3, if_true]
                by_cases hk : dictHas pathKey (stripNulls fields) = true
                · simp only [hk, if_true]
                  rw [validateOps_cons, validateOps_nil, List.append_nil]
                  have hhas2 : dictHas opKey (stripNulls fields) = true :=
                    dictHas_opKey_of_isStrTag hc3
                  rw [validateOne]
                  simp only [hhas2, if_true, stripNulls_stripNulls, hc1, hc2, hc3, hk,
                    Bool.false_eq_true, if_false]
                · simp only [hk, Bool.false_eq_true, if_false, validateOps_nil]
              · simp only [hc3, Bool.false_eq_true, if_false]
                by_cases hc4 : isStrTag (dictGet opKey (stripNulls fields)) deleteLinesTok = true
                · simp only [hc4, if_true]
                  by_cases hk : (dictHas pathKey (stripNulls fields)
                      && dictHas startLineKey (stripNulls fields)
                      && dictHas endLineKey (stripNulls fields)) = true
                  · simp only [hk, if_true]
                    rw [validateOps_cons, validateOps_nil, List.append_nil]
                    have hhas2 : dictHas opKey (stripNulls fields) = true :=
                      dictHas_opKey_of_isStrTag hc4
                    rw [validateOne]
                    simp only [hhas2, if_true, stripNulls_stripNulls, hc1, hc2, hc3, hc4, hk,
                      Bool.false_eq_true, if_false]
                  · simp only [hk, Bool.false_eq_true, if_false, validateOps_nil]
                · simp only [hc4, Bool.false_eq_true, if_false]
                  by_cases hc5 : isStrTag (dictGet opKey (stripNulls fields)) multiTok = true
                  · simp only [hc5, if_true]
                    cases hg : dictGet opsKey (stripNulls fields) with
                    | none => rw [validateOps_nil]
                    | some v =>
                      cases v with
                      | arr nested =>
                        have hsz : sizeOf nested ≤ n := by
                          have h1 := sizeOf_lt_of_dictGet_stripNulls hg
                          simp only [JValue.arr.sizeOf_spec] at h1
                          omega
                        have hnv : validateOps (validateOps nested) = validateOps nested :=
                          ih nested hsz
                        by_cases hemp : (validateOps nested).isEmpty = true
                        · simp only [hemp, if_true, validateOps_nil]
                        · simp only [hemp, Bool.false_eq_true, if_false]
                          rw [validateOps_cons, validateOps_nil, List.append_nil]
                          -- second pass on the updated dict
                          set nv := validateOps nested with hnvdef
                          set d := dictSet opsKey (JValue.arr nv) (stripNulls fields)
                            with hddef
                          have hne : opKey ≠ opsKey := by decide
                          have hgo : dictGet opKey d = dictGet opKey (stripNulls fields) := by
                            rw [hddef]
                            exact dictGet_dictSet_ne hne _ _
                          have hcleanD : stripNulls d = d := by
                            rw [hddef]
                            apply stripNulls_eq_self
                            intro kv hkv
                            rcases mem_dictSet hkv with h1 | h1
                            · rw [h1]
                              rfl
                            · exact stripNulls_nonNull h1
                          have hhas2 : dictHas opKey d = true := by
                            rw [dictHas, hgo]
                            rw [isStrTag_true_iff] at hc5
                            simp [hc5]
                          have hgd : dictGet opsKey (stripNulls d) = some (JValue.arr nv) := by
                            rw [hcleanD, hddef]
                            exact dictGet_dictSet_self _ _ _
                          rw [validateOne]
                          simp only [hhas2, if_true, hcleanD, hgo, hc1, hc2, hc3, hc4, hc5,
                            Bool.false_eq_true, if_false, if_true]
                          cases hg2 : dictGet opsKey (stripNulls d) with
                          | none =>
                            rw [hgd] at hg2
                            exact absurd hg2 (by simp)
                          | some w =>
                            rw [hgd] at hg2
                            have hw : JValue.arr nv = w := Option.some.inj hg2
                            cases hw
                            dsimp only
                            rw [hnv]
                            simp only [hemp, Bool.false_eq_true, if_false]
                            rw [hddef, dictSet_dictSet_same]
                      | null => rw [validateOps_nil]
                      | bool b => rw [validateOps_nil]
                      | num m => rw [validateOps_nil]
                      | str s => rw [validateOps_nil]
                      | obj o => rw [validateOps_nil]
                  · simp only [hc5, Bool.false_eq_true, if_false]
                    by_cases hc6 : (isStrTag (dictGet opKey (stripNulls fields)) verifyTok
                        || isStrTag (dictGet opKey (stripNulls fields)) retryTok) = true
                    · simp only [hc6, if_true]
                      rw [validateOps_cons, validateOps_nil, List.append_nil]
                      have hhas2 : dictHas opKey (stripNulls fields) = true := by
                        rcases Bool.or_eq_true_iff.mp hc6 with h | h <;>
                          exact dictHas_opKey_of_isStrTag h
                      rw [validateOne]
                      simp only [hhas2, if_true, stripNulls_stripNulls, hc1, hc2, hc3, hc4, hc5,
                        hc6, Bool.false_eq_true, if_false]
                    · simp only [hc6, Bool.false_eq_true, if_false, validateOps_nil]
        · simp only [Bool.not_eq_true] at hop
          simp [validateOne, hop, validateOps_nil]

/-- C7: the validator is idempotent — validating an already-validated
operation sequence returns the same sequence. -/
theorem validateOps_idem (l : List JValue) :
    validateOps (validateOps l) = validateOps l :=
  validate_idem_bounded (sizeOf l) l le_rfl

end PrimateCoder
